import Mathlib

/-!
Verification of the core data-path components of the bt-rust BitTorrent
engine, as a shallow embedding in Lean.

Byte buffers are modelled as `List Nat`, machine integers (`u32`, `usize`)
as `Nat` with explicit `% 2 ^ 32` wrapping where the Rust code can wrap,
and `i64` as unbounded `Int` with Rust's truncating division modelled by
`Int.tdiv`. Rust panics are modelled by `Option`/`none` (or, for fallible
operations, `Except`). All definitions are translated from the source
files (`src/blockinfo.rs`, `src/avg.rs`, `src/peer/codec/handshake.rs`,
`src/disk/io/file_io.rs`, `src/disk/mod.rs`, `src/iovecs/utils.rs`,
`src/iovecs/window.rs`); the per-torrent allocation and block routines,
whose implementation is absent from the source tree, are modelled from
the specification and marked as such.
-/

/-- `BLOCK_LEN` from `define.rs`: the canonical 16 KiB block length. -/
def BLOCK_LEN : Nat := 0x4000

/-- `block_len` from `blockinfo.rs`. The Rust function takes
`piece_len : u32` and `block_index : usize`, casts the index to `u32`
(truncating, modelled by `% 2 ^ 32`), multiplies by `BLOCK_LEN`
(wrapping in release builds, modelled by `% 2 ^ 32`), asserts
`piece_len > block_offset` (a failing assert, i.e. a panic, is `none`)
and returns `min (piece_len - block_offset) BLOCK_LEN`. -/
def block_len (piece_len : Nat) (block_index : Nat) : Option Nat :=
  let bi := block_index % 2 ^ 32
  let block_offset := bi * BLOCK_LEN % 2 ^ 32
  if block_offset < piece_len then
    some (min (piece_len - block_offset) BLOCK_LEN)
  else
    none

/-- `block_count` from `blockinfo.rs`: the number of blocks in a piece of
the given length, rounding up. -/
def block_count (piece_len : Nat) : Nat :=
  (piece_len + (BLOCK_LEN - 1)) / BLOCK_LEN

/-- `SlidingAvg` from `avg.rs`: fixed-point running mean and deviation
(sample values scaled by 64). -/
structure SlidingAvg where
  mean : Int
  deviation : Int
  sample_count : Nat
  inverted_gain : Nat
deriving Repr, DecidableEq

/-- `SlidingAvg::new` from `avg.rs`. -/
def SlidingAvg.new (inverted_gain : Nat) : SlidingAvg :=
  { mean := 0, deviation := 0, sample_count := 0, inverted_gain := inverted_gain }

/-- `SlidingAvg::update` from `avg.rs`. The only panic reachable in the
unbounded-integer model is the `i64` division by zero, which happens
exactly when the (conditionally incremented) sample count is zero; that
panic is modelled by `none`. Rust's `i64` `/` truncates toward zero,
modelled by `Int.tdiv`. -/
def SlidingAvg.update (a : SlidingAvg) (sample0 : Int) : Option SlidingAvg :=
  let sample := sample0 * 64
  let deviation := if 0 < a.sample_count then |a.mean - sample| else 0
  let sc := if a.sample_count < a.inverted_gain then a.sample_count + 1 else a.sample_count
  if sc = 0 then none
  else
    let mean := a.mean + Int.tdiv (sample - a.mean) (sc : Int)
    let dev :=
      if 1 < sc then a.deviation + Int.tdiv (deviation - a.deviation) ((sc : Int) - 1)
      else a.deviation
    some { mean := mean, deviation := dev, sample_count := sc,
           inverted_gain := a.inverted_gain }

/-- `SlidingAvg::mean` from `avg.rs` (named `mean_value` here because the
field keeps the source name `mean`): `0` before the first sample,
otherwise `(mean + 32) / 64` in truncating division. -/
def SlidingAvg.mean_value (a : SlidingAvg) : Int :=
  if a.sample_count = 0 then 0 else Int.tdiv (a.mean + 32) 64

/-- Truncating division of `s * 64 + 32` by `64` recovers `s` only for
nonnegative `s`; for negative `s` the quotient is `s + 1`. -/
theorem tdiv_scale_round (s : Int) :
    Int.tdiv (s * 64 + 32) 64 = if 0 ≤ s then s else s + 1 := by
  rcases le_or_lt 0 s with h | h
  · rw [if_pos h, Int.tdiv_eq_ediv (by nlinarith) (by norm_num)]
    omega
  · rw [if_neg (not_le.mpr h)]
    have h1 : s * 64 + 32 = -(-(s * 64 + 32)) := by ring
    rw [h1, Int.neg_tdiv, Int.tdiv_eq_ediv (by nlinarith) (by norm_num)]
    omega

/-- C5 (corrected): for `i < block_count piece_len` the block length is
`min BLOCK_LEN (piece_len - i * BLOCK_LEN)` and is positive; the panic on
an out-of-range index is only guaranteed while `i * BLOCK_LEN` does not
wrap a `u32` (the `block_index as u32` cast and the `u32` multiplication
truncate, so e.g. `i = 2 ^ 32` slips past the assertion). -/
theorem block_len_spec (piece_len i : Nat) (h1 : 1 ≤ piece_len)
    (h2 : piece_len < 2 ^ 32) :
    (i < block_count piece_len →
      block_len piece_len i = some (min BLOCK_LEN (piece_len - i * BLOCK_LEN)) ∧
      0 < min BLOCK_LEN (piece_len - i * BLOCK_LEN)) ∧
    (block_count piece_len ≤ i → i * BLOCK_LEN < 2 ^ 32 →
      block_len piece_len i = none) := by
  constructor
  · intro hi
    have hb : i * BLOCK_LEN < piece_len := by
      simp only [block_count, BLOCK_LEN] at hi ⊢
      omega
    have hi32 : i < 2 ^ 32 := by
      have hle : i ≤ i * BLOCK_LEN := Nat.le_mul_of_pos_right i (by decide)
      omega
    have e1 : i % 2 ^ 32 = i := Nat.mod_eq_of_lt hi32
    have e2 : i * BLOCK_LEN % 2 ^ 32 = i * BLOCK_LEN :=
      Nat.mod_eq_of_lt (lt_trans hb h2)
    simp only [block_len, e1, e2, if_pos hb]
    constructor
    · rw [Nat.min_comm]
    · simp only [lt_min_iff]
      exact ⟨by decide, by omega⟩
  · intro hi hw
    have hi32 : i < 2 ^ 32 := by
      have hle : i ≤ i * BLOCK_LEN := Nat.le_mul_of_pos_right i (by decide)
      omega
    have hb : ¬ i * BLOCK_LEN < piece_len := by
      simp only [block_count, BLOCK_LEN] at hi ⊢
      omega
    have e1 : i % 2 ^ 32 = i := Nat.mod_eq_of_lt hi32
    have e2 : i * BLOCK_LEN % 2 ^ 32 = i * BLOCK_LEN := Nat.mod_eq_of_lt hw
    simp only [block_len, e1, e2, if_neg hb]

/-- Witness for `block_len_spec` at `piece_len = 1`, `i = 0`. -/
theorem block_len_spec_witness :
    (1 ≤ 1 ∧ (1 : Nat) < 2 ^ 32) ∧
    ((0 < block_count 1 →
       block_len 1 0 = some (min BLOCK_LEN (1 - 0 * BLOCK_LEN)) ∧
       0 < min BLOCK_LEN (1 - 0 * BLOCK_LEN)) ∧
     (block_count 1 ≤ 0 → 0 * BLOCK_LEN < 2 ^ 32 → block_len 1 0 = none)) :=
  ⟨⟨by decide, by decide⟩, block_len_spec 1 0 (by decide) (by decide)⟩

/-- C5 counterexample: `2 ^ 32` is at or past `block_count 1 = 1`, yet
`block_len 1 (2 ^ 32)` does not panic — the `usize → u32` cast truncates
the index to `0` and the length `1` is returned. -/
theorem block_len_no_panic_counterexample :
    block_count 1 ≤ 2 ^ 32 ∧ block_len 1 (2 ^ 32) = some 1 := by
  constructor
  · norm_num [block_count, BLOCK_LEN]
  · rfl

/-- C9 (confirmed): `SlidingAvg::update` divides by the post-increment
sample count, so with `inverted_gain = 0` the very first `update` divides
by zero (panics); with `inverted_gain ≥ 1` the divisor is positive on
every update and `update` never panics. -/
theorem sliding_avg_divisor_spec :
    (∀ s : Int, (SlidingAvg.new 0).update s = none) ∧
    (∀ (a : SlidingAvg) (s : Int), 1 ≤ a.inverted_gain → (a.update s).isSome) := by
  constructor
  · intro s
    rfl
  · intro a s h
    simp only [SlidingAvg.update]
    have hsc : (if a.sample_count < a.inverted_gain then a.sample_count + 1
        else a.sample_count) ≠ 0 := by
      split <;> omega
    simp only [if_neg hsc, Option.isSome_some]

/-- Witness for `sliding_avg_divisor_spec`. -/
theorem sliding_avg_divisor_spec_witness :
    (SlidingAvg.new 0).update 5 = none ∧
    (1 ≤ (SlidingAvg.new 4).inverted_gain ∧ ((SlidingAvg.new 4).update 5).isSome) :=
  ⟨sliding_avg_divisor_spec.1 5,
   by decide,
   sliding_avg_divisor_spec.2 (SlidingAvg.new 4) 5 (by decide)⟩

/-- C7 counterexample: the first sample does not always fully determine
the mean. A fresh accumulator updated with `-1` reports mean `0`, not
`-1`, because `(-64 + 32) / 64` truncates toward zero. -/
theorem sliding_avg_negative_first_sample_counterexample :
    ((SlidingAvg.new 4).update (-1)).map SlidingAvg.mean_value = some 0 ∧
    some (0 : Int) ≠ some (-1) := by
  constructor
  · rfl
  · decide

/-- C7 (corrected): after a single `update s` on a fresh accumulator with
`inverted_gain ≥ 1` the fixed-point mean is exactly `s * 64`, and
`mean()` reports `s` for `s ≥ 0` but `s + 1` for `s < 0` (truncating
division of `s * 64 + 32` by `64`); whenever at least one sample has been
seen, `mean()` reports `(mean + 32) / 64` in truncating division. -/
theorem sliding_avg_first_sample (ig : Nat) (s : Int) (h : 1 ≤ ig) :
    (SlidingAvg.new ig).update s =
      some { mean := s * 64, deviation := 0, sample_count := 1, inverted_gain := ig } ∧
    ((SlidingAvg.new ig).update s).map SlidingAvg.mean_value =
      some (if 0 ≤ s then s else s + 1) ∧
    (∀ a : SlidingAvg, a.sample_count ≠ 0 →
      a.mean_value = Int.tdiv (a.mean + 32) 64) := by
  have h0 : 0 < ig := h
  have hupd : (SlidingAvg.new ig).update s =
      some { mean := s * 64, deviation := 0, sample_count := 1, inverted_gain := ig } := by
    simp [SlidingAvg.update, SlidingAvg.new, h0]
  refine ⟨hupd, ?_, ?_⟩
  · rw [hupd]
    simp only [Option.map_some']
    congr 1
    simp only [SlidingAvg.mean_value]
    norm_num
    exact tdiv_scale_round s
  · intro a ha
    simp [SlidingAvg.mean_value, ha]

/-- Witness for `sliding_avg_first_sample` at `ig = 4`, `s = 10`. -/
theorem sliding_avg_first_sample_witness :
    1 ≤ 4 ∧
    ((SlidingAvg.new 4).update 10 =
      some { mean := 10 * 64, deviation := 0, sample_count := 1, inverted_gain := 4 } ∧
     ((SlidingAvg.new 4).update 10).map SlidingAvg.mean_value =
      some (if (0 : Int) ≤ 10 then 10 else 10 + 1) ∧
     (∀ a : SlidingAvg, a.sample_count ≠ 0 →
       a.mean_value = Int.tdiv (a.mean + 32) 64)) :=
  ⟨by decide, sliding_avg_first_sample 4 10 (by decide)⟩

/-- The canonical 19-byte protocol string from `handshake.rs`, as bytes. -/
def PROTOCOL_STRING : List Nat :=
  [66, 105, 116, 84, 111, 114, 114, 101, 110, 116, 32,
   112, 114, 111, 116, 111, 99, 111, 108]

/-- `Handshake` from `handshake.rs`; the four fixed-size byte arrays are
modelled as byte lists whose lengths are constrained in the theorems. -/
structure Handshake where
  prot : List Nat
  reserved : List Nat
  info_hash : List Nat
  peer_id : List Nat
deriving Repr, DecidableEq

/-- `HandshakeCodec::encode` from `handshake.rs`: the one-byte protocol
length prefix (`prot.len() as u8`) followed by the four fields. -/
def HandshakeCodec.encode (h : Handshake) : List Nat :=
  (h.prot.length % 256) :: (h.prot ++ h.reserved ++ h.info_hash ++ h.peer_id)

/-- The three outcomes of `HandshakeCodec::decode`. -/
inductive HandshakeDecode where
  | needMore
  | invalidInput
  | ok (h : Handshake)
deriving Repr, DecidableEq

/-- `HandshakeCodec::decode` from `handshake.rs`. The result is paired
with the buffer as the call leaves it: the length prefix is only peeked,
the buffer is consumed (1 + 67 bytes) solely on a successful decode.
Only the length prefix is compared against the protocol string length;
the protocol string bytes themselves are copied, not validated. -/
def HandshakeCodec.decode (buf : List Nat) : HandshakeDecode × List Nat :=
  match buf with
  | [] => (.needMore, [])
  | prot_len :: rest =>
    if prot_len ≠ PROTOCOL_STRING.length then (.invalidInput, prot_len :: rest)
    else if 19 + 8 + 20 + 20 < (prot_len :: rest).length then
      (.ok { prot := rest.take 19,
             reserved := (rest.drop 19).take 8,
             info_hash := (rest.drop 27).take 20,
             peer_id := (rest.drop 47).take 20 },
       rest.drop 67)
    else (.needMore, prot_len :: rest)

/-- C6 counterexample: a 68-byte buffer whose length prefix is 19 but
whose protocol-string bytes are all zero decodes successfully — it does
not fail with `InvalidInput`, because `decode` never compares the
protocol string content. -/
theorem handshake_decode_unchecked_protocol_counterexample :
    (HandshakeCodec.decode (19 :: List.replicate 67 0)).1 =
      HandshakeDecode.ok
        { prot := List.replicate 19 0, reserved := List.replicate 8 0,
          info_hash := List.replicate 20 0, peer_id := List.replicate 20 0 } ∧
    List.replicate 19 0 ≠ PROTOCOL_STRING := by
  constructor
  · rfl
  · decide

/-- C6 (corrected): encoding then decoding round-trips byte-for-byte;
decoding any proper prefix of an encoded handshake (shorter than 68
bytes) reports need-more-data without consuming the buffer; but only
the one-byte length prefix is validated — a buffer whose first byte
differs from 19 fails with InvalidInput, while a buffer with prefix 19
and a non-canonical protocol string decodes successfully. -/
theorem handshake_codec_spec (h : Handshake) (hp : h.prot.length = 19)
    (hr : h.reserved.length = 8) (hi : h.info_hash.length = 20)
    (hd : h.peer_id.length = 20) :
    HandshakeCodec.decode (HandshakeCodec.encode h) = (.ok h, []) ∧
    (∀ L, L < 68 →
      HandshakeCodec.decode ((HandshakeCodec.encode h).take L) =
        (.needMore, (HandshakeCodec.encode h).take L)) ∧
    (∀ b rest, b ≠ 19 →
      HandshakeCodec.decode (b :: rest) = (.invalidInput, b :: rest)) := by
  have hplen : PROTOCOL_STRING.length = 19 := by decide
  have hpayload : (h.prot ++ h.reserved ++ h.info_hash ++ h.peer_id).length = 67 := by
    simp [hp, hr, hi, hd]
  refine ⟨?_, ?_, ?_⟩
  · show HandshakeCodec.decode
      ((h.prot.length % 256) :: (h.prot ++ h.reserved ++ h.info_hash ++ h.peer_id)) = _
    rw [hp]
    simp only [HandshakeCodec.decode, hplen]
    rw [if_neg (by omega)]
    rw [if_pos (by simp only [List.length_cons, hpayload]; omega)]
    have e1 : (h.prot ++ h.reserved ++ h.info_hash ++ h.peer_id).take 19 = h.prot := by
      rw [show (19 : Nat) = h.prot.length from hp.symm]
      rw [List.append_assoc, List.append_assoc, List.take_left]
    have edrop : (h.prot ++ h.reserved ++ h.info_hash ++ h.peer_id).drop 19 =
        h.reserved ++ (h.info_hash ++ h.peer_id) := by
      rw [show (19 : Nat) = h.prot.length from hp.symm]
      rw [List.append_assoc, List.append_assoc, List.drop_left]
    have e2 : ((h.prot ++ h.reserved ++ h.info_hash ++ h.peer_id).drop 19).take 8 =
        h.reserved := by
      rw [edrop, show (8 : Nat) = h.reserved.length from hr.symm, List.take_left]
    have edrop2 : (h.prot ++ h.reserved ++ h.info_hash ++ h.peer_id).drop 27 =
        h.info_hash ++ h.peer_id := by
      rw [show (27 : Nat) = 19 + 8 by norm_num, ← List.drop_drop, edrop,
        show (8 : Nat) = h.reserved.length from hr.symm, List.drop_left]
    have e3 : ((h.prot ++ h.reserved ++ h.info_hash ++ h.peer_id).drop 27).take 20 =
        h.info_hash := by
      rw [edrop2, show (20 : Nat) = h.info_hash.length from hi.symm, List.take_left]
    have e4 : ((h.prot ++ h.reserved ++ h.info_hash ++ h.peer_id).drop 47).take 20 =
        h.peer_id := by
      have : (h.prot ++ h.reserved ++ h.info_hash ++ h.peer_id).drop 47 = h.peer_id := by
        rw [show (47 : Nat) = 27 + 20 by norm_num, ← List.drop_drop, edrop2,
          show (20 : Nat) = h.info_hash.length from hi.symm, List.drop_left]
      rw [this, List.take_of_length_le (by omega)]
    have e5 : (h.prot ++ h.reserved ++ h.info_hash ++ h.peer_id).drop 67 = [] := by
      rw [List.drop_eq_nil_iff]
      omega
    rw [e1, e2, e3, e4, e5]
  · intro L hL
    rcases Nat.eq_zero_or_pos L with h0 | h0
    · subst h0
      simp [HandshakeCodec.decode]
    · have : (HandshakeCodec.encode h).take L =
        19 :: (h.prot ++ h.reserved ++ h.info_hash ++ h.peer_id).take (L - 1) := by
        simp only [HandshakeCodec.encode, hp]
        rcases Nat.exists_eq_add_of_lt h0 with ⟨k, hk⟩
        cases L with
        | zero => omega
        | succ n => simp [List.take_succ_cons]
      rw [this]
      simp only [HandshakeCodec.decode, hplen]
      rw [if_neg (by omega)]
      rw [if_neg ?_]
      have hlen : ((h.prot ++ h.reserved ++ h.info_hash ++ h.peer_id).take (L - 1)).length ≤ 66 := by
        rw [List.length_take]
        omega
      simp only [List.length_cons]
      omega
  · intro b rest hb
    simp only [HandshakeCodec.decode, hplen]
    rw [if_pos (by omega)]

/-- A concrete well-formed handshake used as the witness input. -/
def testHandshake : Handshake :=
  { prot := PROTOCOL_STRING, reserved := List.replicate 8 0,
    info_hash := List.replicate 20 1, peer_id := List.replicate 20 2 }

/-- Witness for `handshake_codec_spec` at `testHandshake`. -/
theorem handshake_codec_spec_witness :
    (testHandshake.prot.length = 19 ∧ testHandshake.reserved.length = 8 ∧
     testHandshake.info_hash.length = 20 ∧ testHandshake.peer_id.length = 20) ∧
    (HandshakeCodec.decode (HandshakeCodec.encode testHandshake) = (.ok testHandshake, []) ∧
     (∀ L, L < 68 →
       HandshakeCodec.decode ((HandshakeCodec.encode testHandshake).take L) =
         (.needMore, (HandshakeCodec.encode testHandshake).take L)) ∧
     (∀ b rest, b ≠ 19 →
       HandshakeCodec.decode (b :: rest) = (.invalidInput, b :: rest))) :=
  ⟨⟨by decide, by decide, by decide, by decide⟩,
   handshake_codec_spec testHandshake (by decide) (by decide) (by decide) (by decide)⟩

/-- The four disk commands from `disk/mod.rs` (`Command`), with the
per-command payloads abstracted away to the torrent id they target. -/
inductive DiskCommand where
  | newTorrent (id : Nat)
  | writeBlock (id : Nat)
  | readBlock (id : Nat)
  | shutdown
deriving Repr, DecidableEq

/-- The replies the disk worker emits on its outgoing channels
(`engine::Command::TorrentAllocation` on the engine channel, and the
per-torrent / per-peer replies). -/
inductive DiskReply where
  | allocOk (id : Nat)
  | allocAlreadyExists (id : Nat)
  | blockWritten (id : Nat)
  | blockRead (id : Nat)
deriving Repr, DecidableEq

/-- How one iteration of the `Disk::start` command loop ends. -/
inductive DiskStep where
  | next (torrents : List Nat)
  | stop
  | fail
deriving Repr, DecidableEq

/-- One iteration of the `Disk::start` loop from `disk/mod.rs`. The
torrent map is modelled by the list of allocated ids.

Modelled from the spec: the bodies of the per-torrent operations
(`Torrent::new`, `Torrent::write_block`, `Torrent::read_block`) are
absent from the source tree (only the `Torrent` struct stub exists), so
per the specification they are modelled as succeeding: allocation opens
the files and replies Ok, and block writes/reads report their own IO
results on the torrent/peer channels without returning an error to the
loop. The routing and termination structure is from `Disk::start`:
a duplicate NewTorrent replies AlreadyExists and continues the loop,
while WriteBlock/ReadBlock look up the torrent id and propagate
InvalidTorrentId out of the loop with the question-mark operator. -/
def diskStep (torrents : List Nat) : DiskCommand → List DiskReply × DiskStep
  | .newTorrent id =>
    if id ∈ torrents then ([.allocAlreadyExists id], .next torrents)
    else ([.allocOk id], .next (torrents ++ [id]))
  | .writeBlock id =>
    if id ∈ torrents then ([.blockWritten id], .next torrents)
    else ([], .fail)
  | .readBlock id =>
    if id ∈ torrents then ([.blockRead id], .next torrents)
    else ([], .fail)
  | .shutdown => ([], .stop)

/-- How a whole run of the `Disk::start` loop ends: the command stream
was exhausted, the loop broke on Shutdown (both return Ok), or an error
propagated out of the loop (the worker task terminates with Err). -/
inductive DiskExit where
  | completed (torrents : List Nat)
  | shutdown (torrents : List Nat)
  | failed
deriving Repr, DecidableEq

/-- The `Disk::start` command loop over a finite command stream. -/
def diskRun (torrents : List Nat) : List DiskCommand → List DiskReply × DiskExit
  | [] => ([], .completed torrents)
  | c :: rest =>
    match diskStep torrents c with
    | (out, .next torrents') =>
      let r := diskRun torrents' rest
      (out ++ r.1, r.2)
    | (out, .stop) => (out, .shutdown torrents)
    | (out, .fail) => (out, .failed)

/-- C2 counterexample: a WriteBlock for an unknown torrent id terminates
the worker; a subsequent NewTorrent command is never processed (no
allocation reply is emitted and the run ends in the failed state). -/
theorem disk_invalid_id_kills_worker_counterexample :
    diskRun [] [DiskCommand.writeBlock 0, DiskCommand.newTorrent 1] =
      ([], DiskExit.failed) := by
  rfl

/-- C2 (corrected): a WriteBlock or ReadBlock command whose torrent id is
not in the worker's torrent map produces InvalidTorrentId, which the
command loop propagates with the question-mark operator: the worker
terminates immediately and processes none of the subsequent commands in
the stream (the error is fatal to the worker, not merely to the caller). -/
theorem disk_invalid_id_spec (torrents : List Nat) (id : Nat)
    (rest : List DiskCommand) (h : id ∉ torrents) :
    diskRun torrents (DiskCommand.writeBlock id :: rest) = ([], .failed) ∧
    diskRun torrents (DiskCommand.readBlock id :: rest) = ([], .failed) := by
  constructor <;> simp [diskRun, diskStep, h]

/-- Witness for `disk_invalid_id_spec`. -/
theorem disk_invalid_id_spec_witness :
    (3 ∉ ([0, 1] : List Nat)) ∧
    (diskRun [0, 1] (DiskCommand.writeBlock 3 :: [DiskCommand.shutdown]) = ([], .failed) ∧
     diskRun [0, 1] (DiskCommand.readBlock 3 :: [DiskCommand.shutdown]) = ([], .failed)) :=
  ⟨by decide, disk_invalid_id_spec [0, 1] 3 [DiskCommand.shutdown] (by decide)⟩

/-- C8 (confirmed): for a stream that allocates the same torrent id
twice, the worker replies Ok to the first NewTorrent (inserting the
torrent), replies AlreadyExists via the engine channel to the second
while leaving the torrent map unchanged, and remains live: the rest of
the stream is processed exactly as it would be after the first
allocation alone. -/
theorem disk_duplicate_new_torrent_spec (torrents : List Nat) (id : Nat)
    (rest : List DiskCommand) (h : id ∉ torrents) :
    diskRun torrents (DiskCommand.newTorrent id :: DiskCommand.newTorrent id :: rest) =
      (DiskReply.allocOk id :: DiskReply.allocAlreadyExists id ::
        (diskRun (torrents ++ [id]) rest).1,
       (diskRun (torrents ++ [id]) rest).2) := by
  simp [diskRun, diskStep, h]

/-- Witness for `disk_duplicate_new_torrent_spec`. -/
theorem disk_duplicate_new_torrent_spec_witness :
    (7 ∉ ([] : List Nat)) ∧
    diskRun [] (DiskCommand.newTorrent 7 :: DiskCommand.newTorrent 7 ::
        [DiskCommand.writeBlock 7]) =
      (DiskReply.allocOk 7 :: DiskReply.allocAlreadyExists 7 ::
        (diskRun ([] ++ [7]) [DiskCommand.writeBlock 7]).1,
       (diskRun ([] ++ [7]) [DiskCommand.writeBlock 7]).2) :=
  ⟨by decide, disk_duplicate_new_torrent_spec [] 7 [DiskCommand.writeBlock 7] (by decide)⟩

/-- One step of the chunk-splitting fold in `TorrentFile::read`
(`file_io.rs`): `vec.last_mut().unwrap().push(x)`. -/
def chunkPush (vec : List (List Nat)) (x : Nat) : List (List Nat) :=
  vec.dropLast ++ [(vec.getLast?.getD []) ++ [x]]


/-- The fold body from `TorrentFile::read`: start a fresh chunk whenever
the running byte index is a multiple of `BLOCK_LEN`, then push the byte
into the last chunk. -/
def chunkStep (acc : List (List Nat) × Nat) (x : Nat) : List (List Nat) × Nat :=
  let vec := if acc.2 % BLOCK_LEN = 0 then acc.1 ++ [[]] else acc.1
  (chunkPush vec x, acc.2 + 1)

/-- The chunk-splitting fold from `TorrentFile::read` in `file_io.rs`:
splits the read buffer into `BLOCK_LEN`-sized shared chunks. -/
def chunkify (data : List Nat) : List (List Nat) :=
  (data.foldl chunkStep ([], 0)).1

/-- Reference shape of the chunking: successive `BLOCK_LEN`-byte slices.
Proved equal to the fold-based `chunkify` below. -/
def chunksOf (l : List Nat) : List (List Nat) :=
  if l = [] then [] else l.take BLOCK_LEN :: chunksOf (l.drop BLOCK_LEN)
termination_by l.length
decreasing_by
  simp only [List.length_drop]
  have : l.length ≠ 0 := by
    simpa [List.length_eq_zero] using ‹l ≠ []›
  have : 0 < BLOCK_LEN := by decide
  omega

theorem chunksOf_nil : chunksOf [] = [] := by rw [chunksOf]; rfl

theorem chunksOf_ne_nil (l : List Nat) (h : l ≠ []) : chunksOf l ≠ [] := by
  rw [chunksOf, if_neg h]
  simp

theorem chunksOf_singleton (x : Nat) : chunksOf [x] = [[x]] := by
  rw [chunksOf, if_neg (by simp), List.take_of_length_le (by simp [BLOCK_LEN]),
    List.drop_eq_nil_of_le (by simp [BLOCK_LEN]), chunksOf_nil]

theorem chunkPush_cons (a : List Nat) (vec : List (List Nat)) (x : Nat)
    (h : vec ≠ []) : chunkPush (a :: vec) x = a :: chunkPush vec x := by
  rcases vec with _ | ⟨b, t⟩
  · exact absurd rfl h
  · simp [chunkPush, List.dropLast_cons_of_ne_nil, List.getLast?_cons_cons]

theorem chunkPush_concat_nil (v : List (List Nat)) (x : Nat) :
    chunkPush (v ++ [[]]) x = v ++ [[x]] := by
  simp [chunkPush]

theorem chunksOf_snoc (xs : List Nat) (x : Nat) :
    chunksOf (xs ++ [x]) =
      if xs.length % BLOCK_LEN = 0 then chunksOf xs ++ [[x]]
      else chunkPush (chunksOf xs) x := by
  suffices H : ∀ n (xs : List Nat), xs.length ≤ n →
      chunksOf (xs ++ [x]) =
        if xs.length % BLOCK_LEN = 0 then chunksOf xs ++ [[x]]
        else chunkPush (chunksOf xs) x from H xs.length xs le_rfl
  intro n
  induction n with
  | zero =>
    intro xs hlen
    have hx : xs = [] := by
      simpa [List.length_eq_zero] using Nat.le_zero.mp hlen
    subst hx
    simp [chunksOf_singleton, chunksOf_nil]
  | succ n ih =>
    intro xs hlen
    rcases eq_or_ne xs [] with hx | hx
    · subst hx
      simp [chunksOf_singleton, chunksOf_nil]
    · have hxlen : 0 < xs.length := List.length_pos.mpr hx
      rcases lt_trichotomy xs.length BLOCK_LEN with hcase | hcase | hcase
      · -- xs.length < BLOCK_LEN : single chunk
        have h1 : chunksOf xs = [xs] := by
          rw [chunksOf, if_neg hx, List.take_of_length_le (le_of_lt hcase),
            List.drop_eq_nil_of_le (le_of_lt hcase), chunksOf_nil]
        have h2 : chunksOf (xs ++ [x]) = [xs ++ [x]] := by
          rw [chunksOf, if_neg (by simp),
            List.take_of_length_le (by simp; omega),
            List.drop_eq_nil_of_le (by simp; omega), chunksOf_nil]
        have hmod : ¬ xs.length % BLOCK_LEN = 0 := by
          rw [Nat.mod_eq_of_lt hcase]
          omega
        rw [h2, if_neg hmod, h1]
        simp [chunkPush]
      · -- xs.length = BLOCK_LEN
        have h1 : chunksOf xs = [xs] := by
          rw [chunksOf, if_neg hx, List.take_of_length_le (le_of_eq hcase),
            List.drop_eq_nil_of_le (le_of_eq hcase), chunksOf_nil]
        have htake : (xs ++ [x]).take BLOCK_LEN = xs := by
          rw [← hcase, List.take_left]
        have hdrop : (xs ++ [x]).drop BLOCK_LEN = [x] := by
          rw [← hcase, List.drop_left]
        have h2 : chunksOf (xs ++ [x]) = [xs, [x]] := by
          rw [chunksOf, if_neg (by simp), htake, hdrop, chunksOf_singleton]
        have hmod : xs.length % BLOCK_LEN = 0 := by
          rw [hcase, Nat.mod_self]
        rw [h2, if_pos hmod, h1]
        rfl
      · -- xs.length > BLOCK_LEN
        have htake : (xs ++ [x]).take BLOCK_LEN = xs.take BLOCK_LEN :=
          List.take_append_of_le_length (le_of_lt hcase)
        have hdrop : (xs ++ [x]).drop BLOCK_LEN = xs.drop BLOCK_LEN ++ [x] :=
          List.drop_append_of_le_length (le_of_lt hcase)
        have hdne : xs.drop BLOCK_LEN ≠ [] := by
          rw [← List.length_pos, List.length_drop]
          omega
        have hih := ih (xs.drop BLOCK_LEN) (by
          rw [List.length_drop]
          have : 0 < BLOCK_LEN := by decide
          omega)
        have hmodeq : (xs.drop BLOCK_LEN).length % BLOCK_LEN = xs.length % BLOCK_LEN := by
          rw [List.length_drop]
          conv_rhs => rw [show xs.length = xs.length - BLOCK_LEN + BLOCK_LEN by omega]
          rw [Nat.add_mod_right]
        rw [chunksOf, if_neg (by simp), htake, hdrop, hih, hmodeq]
        rw [show chunksOf xs = xs.take BLOCK_LEN :: chunksOf (xs.drop BLOCK_LEN) by
          rw [chunksOf, if_neg hx]]
        by_cases hmod : xs.length % BLOCK_LEN = 0
        · rw [if_pos hmod, if_pos hmod]
          simp
        · rw [if_neg hmod, if_neg hmod,
            chunkPush_cons _ _ _ (chunksOf_ne_nil _ hdne)]

theorem chunkify_eq_chunksOf (data : List Nat) : chunkify data = chunksOf data := by
  suffices H : data.foldl chunkStep ([], 0) = (chunksOf data, data.length) by
    simp [chunkify, H]
  induction data using List.reverseRecOn with
  | nil => simp [chunksOf_nil]
  | append_singleton xs x ih =>
    rw [List.foldl_append, ih]
    simp only [List.foldl_cons, List.foldl_nil, chunkStep, chunksOf_snoc]
    by_cases hmod : xs.length % BLOCK_LEN = 0
    · simp [hmod, chunkPush_concat_nil]
    · simp [hmod]

theorem chunksOf_bounded_facts :
    ∀ n (l : List Nat), l.length ≤ n →
      (chunksOf l).flatten = l ∧
      (chunksOf l).length = (l.length + (BLOCK_LEN - 1)) / BLOCK_LEN ∧
      (∀ c ∈ (chunksOf l).dropLast, c.length = BLOCK_LEN) ∧
      (∀ c ∈ chunksOf l, c.length ≤ BLOCK_LEN) := by
  intro n
  induction n with
  | zero =>
    intro l hlen
    have hl : l = [] := by
      simpa [List.length_eq_zero] using Nat.le_zero.mp hlen
    subst hl
    simp [chunksOf_nil, BLOCK_LEN]
  | succ n ih =>
    intro l hlen
    rcases eq_or_ne l [] with hl | hl
    · subst hl
      simp [chunksOf_nil, BLOCK_LEN]
    · have h0 : 0 < l.length := List.length_pos.mpr hl
      have hBL : BLOCK_LEN = 16384 := rfl
      have hstep : chunksOf l = l.take BLOCK_LEN :: chunksOf (l.drop BLOCK_LEN) := by
        rw [chunksOf, if_neg hl]
      obtain ⟨hj, hn, hd, hb⟩ := ih (l.drop BLOCK_LEN) (by
        rw [List.length_drop]
        omega)
      refine ⟨?_, ?_, ?_, ?_⟩
      · rw [hstep]
        simp only [List.flatten_cons, hj, List.take_append_drop]
      · rw [hstep]
        simp only [List.length_cons, hn, List.length_drop]
        rw [hBL] at *
        omega
      · intro c hc
        rw [hstep] at hc
        rcases eq_or_ne (l.drop BLOCK_LEN) [] with hdnil | hdnil
        · rw [hdnil, chunksOf_nil] at hc
          simp at hc
        · rw [List.dropLast_cons_of_ne_nil (chunksOf_ne_nil _ hdnil)] at hc
          rcases List.mem_cons.mp hc with hc | hc
          · subst hc
            rw [List.length_take]
            have : ¬ l.length ≤ BLOCK_LEN := by
              intro hle
              exact hdnil (List.drop_eq_nil_of_le hle)
            omega
          · exact hd c hc
      · intro c hc
        rw [hstep] at hc
        rcases List.mem_cons.mp hc with hc | hc
        · subst hc
          rw [List.length_take]
          omega
        · exact hb c hc

/-- The error type of `TorrentFile::read` from `error/disk.rs`. -/
inductive ReadError where
  | invalidBlockOffset
  | missingData
  | ioFailure
deriving Repr, DecidableEq


/-- `TorrentFile::read` from `file_io.rs`, with the file contents
modelled as the byte list `file`. The Windows `seek_read` fills the
`len`-byte zeroed buffer with `count = min len (file.length - offset)`
bytes from the file; the code returns `MissingData` only when that count
is zero, and otherwise chunks the (possibly zero-padded) buffer. -/
def TorrentFile.read (file : List Nat) (offset len : Nat) :
    Except ReadError (List (List Nat)) :=
  let count := min len (file.length - offset)
  if count = 0 then .error .missingData
  else .ok (chunkify ((file.drop offset).take count ++ List.replicate (len - count) 0))


/-- C3 counterexample: a short read does not produce `MissingData`. A
one-byte file read with `len = 2` holds fewer than `len` bytes, yet
`read` returns `Ok` with the missing byte zero-padded. -/
theorem torrent_file_read_short_read_counterexample :
    1 < 2 ∧ ([7] : List Nat).length = 1 ∧
    TorrentFile.read [7] 0 2 = .ok [[7, 0]] := by
  refine ⟨by decide, by decide, ?_⟩
  rfl

/-- C3 (corrected): `read` returns `MissingData` exactly when zero bytes
are available at the offset (offset at or past end-of-file, or
`len = 0`); whenever the full `len` bytes are present it returns `Ok`
with the data split into `⌈len / BLOCK_LEN⌉` chunks, each of length
`BLOCK_LEN` except possibly the last. A short-but-nonzero read is NOT
`MissingData` (see the counterexample). -/
theorem torrent_file_read_spec (file : List Nat) (offset len : Nat) :
    (TorrentFile.read file offset len = .error .missingData ↔
      min len (file.length - offset) = 0) ∧
    (offset + len ≤ file.length → 0 < len →
      TorrentFile.read file offset len = .ok (chunksOf ((file.drop offset).take len)) ∧
      (chunksOf ((file.drop offset).take len)).flatten = (file.drop offset).take len ∧
      (chunksOf ((file.drop offset).take len)).length =
        (len + (BLOCK_LEN - 1)) / BLOCK_LEN ∧
      (∀ c ∈ (chunksOf ((file.drop offset).take len)).dropLast,
        c.length = BLOCK_LEN) ∧
      (∀ c ∈ chunksOf ((file.drop offset).take len), c.length ≤ BLOCK_LEN)) := by
  constructor
  · constructor
    · intro h
      by_contra hc
      simp only [TorrentFile.read, if_neg hc] at h
      exact Except.noConfusion h
    · intro h
      simp only [TorrentFile.read, if_pos h]
  · intro hfull hpos
    have hcount : min len (file.length - offset) = len := by omega
    have hlen : ((file.drop offset).take len).length = len := by
      rw [List.length_take, List.length_drop]
      omega
    have hne : ¬ min len (file.length - offset) = 0 := by omega
    have hread : TorrentFile.read file offset len =
        .ok (chunksOf ((file.drop offset).take len)) := by
      simp only [TorrentFile.read, hcount, Nat.sub_self,
        List.replicate_zero, List.append_nil, chunkify_eq_chunksOf]
      rw [if_neg (show ¬ len = 0 by omega)]
    obtain ⟨hj, hn, hd, hb⟩ :=
      chunksOf_bounded_facts ((file.drop offset).take len).length _ le_rfl
    rw [hlen] at hn
    exact ⟨hread, hj, hn, hd, hb⟩


/-- Witness for `torrent_file_read_spec`. -/
theorem torrent_file_read_spec_witness :
    (2 + 5 ≤ (List.range 8).length ∧ 0 < 5) ∧
    (TorrentFile.read (List.range 8) 2 5 =
        .ok (chunksOf (((List.range 8).drop 2).take 5)) ∧
     (chunksOf (((List.range 8).drop 2).take 5)).flatten =
        ((List.range 8).drop 2).take 5 ∧
     (chunksOf (((List.range 8).drop 2).take 5)).length =
        (5 + (BLOCK_LEN - 1)) / BLOCK_LEN ∧
     (∀ c ∈ (chunksOf (((List.range 8).drop 2).take 5)).dropLast,
        c.length = BLOCK_LEN) ∧
     (∀ c ∈ chunksOf (((List.range 8).drop 2).take 5), c.length ≤ BLOCK_LEN)) :=
  ⟨⟨by decide, by decide⟩,
   (torrent_file_read_spec (List.range 8) 2 5).2 (by decide) (by decide)⟩

/-- `Split` from `iovecs/utils.rs`: the index of the buffer at which the
split occurred and, when the split fell inside that buffer, the stashed
second half of the split buffer (`RawBuf`). -/
structure Split where
  pos : Nat
  split_buf_second_half : Option (List Nat)
deriving Repr, DecidableEq

/-- `IoVecs` from `iovecs/utils.rs`: the buffer list together with the
optional split metadata. Buffers are byte lists. -/
structure IoVecs where
  bufs : List (List Nat)
  split : Option Split
deriving Repr, DecidableEq

/-- Total byte count of a buffer list. -/
def sumLens (l : List (List Nat)) : Nat := (l.map List.length).sum

/-- The buffer-position search inside `IoVecs::bounded`: Rust
`bufs.iter().position(...)` with the running total `bufs_len`, returning
the stopping index together with the accumulated length through it. -/
def findSplitPos (max_len : Nat) : List (List Nat) → Nat → Option (Nat × Nat)
  | [], _ => none
  | b :: rest, acc =>
    if max_len ≤ acc + b.length then some (0, acc + b.length)
    else
      match findSplitPos max_len rest (acc + b.length) with
      | some (i, s) => some (i + 1, s)
      | none => none

/-- `IoVecs::unbounded` from `iovecs/utils.rs`. -/
def IoVecs.unbounded (bufs : List (List Nat)) : IoVecs := ⟨bufs, none⟩

/-- `IoVecs::split_at_buffer_boundary` from `iovecs/utils.rs`. -/
def IoVecs.split_at_buffer_boundary (bufs : List (List Nat)) (pos : Nat) : IoVecs :=
  ⟨bufs, some ⟨pos, none⟩⟩

/-- `IoVecs::split_within_buffer` from `iovecs/utils.rs`: shrink the
buffer at the split position to its first half and stash the second. -/
def IoVecs.split_within_buffer (bufs : List (List Nat))
    (split_pos buf_split_pos : Nat) : IoVecs :=
  let buf_to_split := bufs.getD split_pos []
  ⟨bufs.set split_pos (buf_to_split.take buf_split_pos),
   some ⟨split_pos, some (buf_to_split.drop buf_split_pos)⟩⟩

/-- `IoVecs::bounded` from `iovecs/utils.rs`. `none` models the
`assert!(max_len > 0)` panic. -/
def IoVecs.bounded (bufs : List (List Nat)) (max_len : Nat) : Option IoVecs :=
  if max_len = 0 then none
  else some
    (match findSplitPos max_len bufs 0 with
    | none => IoVecs.unbounded bufs
    | some (pos, bufs_len) =>
      if bufs_len = max_len then
        if pos + 1 = bufs.length then IoVecs.unbounded bufs
        else IoVecs.split_at_buffer_boundary bufs pos
      else
        IoVecs.split_within_buffer bufs pos
          (max_len - (bufs_len - (bufs.getD pos []).length)))

/-- `IoVecs::as_slice` from `iovecs/utils.rs`: the first half of the
split (empty when a previous `advance` emptied it). -/
def IoVecs.as_slice (iv : IoVecs) : List (List Nat) :=
  match iv.split with
  | some s =>
    if s.pos = 0 ∧ iv.bufs ≠ [] ∧ iv.bufs.getD 0 [] = [] then []
    else iv.bufs.take (s.pos + 1)
  | none => iv.bufs

/-- `IoVecs::as_u8_vec` from `iovecs/utils.rs`: the first half flattened
to bytes. -/
def IoVecs.as_u8_vec (iv : IoVecs) : List Nat := iv.as_slice.flatten

/-- `IoVecs::into_tail` from `iovecs/utils.rs`: restore the stashed
second half (if the split was inside a buffer) and return the buffers
from the split position on; at a buffer-boundary split, skip past the
split position (`second_half.pos += 1`). -/
def IoVecs.into_tail (iv : IoVecs) : List (List Nat) :=
  match iv.split with
  | some s =>
    match s.split_buf_second_half with
    | some stash => (iv.bufs.set s.pos stash).drop s.pos
    | none => iv.bufs.drop (s.pos + 1)
  | none => []

/-- The counting loop at the top of `IoVecs::advance`: how many whole
leading buffers fit in `n` bytes, with their total length. -/
def countRem : List (List Nat) → Nat → Nat × Nat
  | [], _ => (0, 0)
  | b :: rest, n =>
    if n < b.length then (0, 0)
    else ((countRem rest (n - b.length)).1 + 1,
          (countRem rest (n - b.length)).2 + b.length)

/-- The split-position adjustment at the end of `IoVecs::advance`. -/
def advSplit (sp : Option Split) (count : Nat) : Option Split :=
  sp.map fun s =>
    if s.pos ≤ count then (⟨0, s.split_buf_second_half⟩ : Split)
    else ⟨s.pos - count, s.split_buf_second_half⟩

/-- The middle section of `IoVecs::advance`: when the whole first half
of a split would be trimmed, keep the buffer at the split position,
panicking (`none`) if `n` overruns the first half. -/
def advAdjust (iv : IoVecs) (n : Nat) : Option (Nat × Nat) :=
  match iv.split with
  | some s =>
    if (countRem iv.as_slice n).1 = s.pos + 1 then
      if (countRem iv.as_slice n).2 < n then none
      else some ((countRem iv.as_slice n).1 - 1,
        (countRem iv.as_slice n).2 - (iv.as_slice.getLast?.getD []).length)
    else some (countRem iv.as_slice n)
  | none => some (countRem iv.as_slice n)

/-- `IoVecs::advance` from `iovecs/utils.rs`: drop whole consumed
buffers, adjust the split position, and trim the front of the next
buffer; `none` models the two panic paths (the explicit `panic!` and
the `assert!(slice.len() >= n)`). -/
def IoVecs.advance (iv : IoVecs) (n : Nat) : Option IoVecs :=
  match advAdjust iv n with
  | none => none
  | some (count, total) =>
    if iv.bufs.drop count = [] then
      some ⟨iv.bufs.drop count, advSplit iv.split count⟩
    else if n - total = 0 then
      some ⟨iv.bufs.drop count, advSplit iv.split count⟩
    else if ((iv.bufs.drop count).getD 0 []).length < n - total then none
    else
      some ⟨(iv.bufs.drop count).set 0
        (((iv.bufs.drop count).getD 0 []).drop (n - total)),
        advSplit iv.split count⟩

-- sanity checks against the Rust unit tests (scaled block contents)
example : IoVecs.bounded [[1,2],[3,4]] 4 = some (IoVecs.unbounded [[1,2],[3,4]]) := by decide
example : (IoVecs.bounded [[1,2],[3,4]] 3).map (fun iv => (iv.as_u8_vec, iv.into_tail.flatten))
    = some ([1,2,3], [4]) := by decide
example : (IoVecs.bounded [[1,2],[3,4],[5,6]] 2).map
    (fun iv => (iv.as_u8_vec, iv.into_tail.flatten)) = some ([1,2], [3,4,5,6]) := by decide
example : (IoVecs.bounded [[1,2],[3,4],[5,6]] 3).map
    (fun iv => (iv.as_u8_vec, iv.into_tail.flatten)) = some ([1,2,3], [4,5,6]) := by decide
-- advance within first half, then check first half and tail
example : ((IoVecs.bounded [[1,2],[3,4],[5,6]] 3).bind (fun iv => iv.advance 2)).map
    (fun iv => (iv.as_u8_vec, iv.into_tail.flatten)) = some ([3], [4,5,6]) := by decide
example : ((IoVecs.bounded [[1,2],[3,4],[5,6]] 3).bind (fun iv => iv.advance 3)).map
    (fun iv => (iv.as_u8_vec, iv.into_tail.flatten)) = some ([], [4,5,6]) := by decide
-- advancing past the first half of a split iovecs panics
example : ((IoVecs.bounded [[1,2],[3,4],[5,6]] 3).bind (fun iv => iv.advance 4)) = none := by
  decide
-- ... but does NOT panic when no split occurred
example : ((IoVecs.bounded [[1,2]] 5).bind (fun iv => iv.advance 4))
    = some ⟨[], none⟩ := by decide
-- full-first-half advance at a buffer boundary split
example : ((IoVecs.bounded [[1,2],[3,4],[5,6]] 4).bind (fun iv => iv.advance 4)).map
    (fun iv => (iv.as_u8_vec, iv.into_tail.flatten)) = some ([], [5,6]) := by decide

theorem sumLens_nil : sumLens [] = 0 := rfl

theorem sumLens_cons (b : List Nat) (l : List (List Nat)) :
    sumLens (b :: l) = b.length + sumLens l := by
  simp [sumLens]

theorem sumLens_append (l₁ l₂ : List (List Nat)) :
    sumLens (l₁ ++ l₂) = sumLens l₁ + sumLens l₂ := by
  simp [sumLens]

theorem length_flatten (l : List (List Nat)) : l.flatten.length = sumLens l := by
  simp [sumLens]

theorem getD_of_lt (l : List (List Nat)) (i : Nat) (h : i < l.length) :
    l.getD i [] = l[i] := by
  simp [List.getD_eq_getElem?_getD, List.getElem?_eq_getElem h]

theorem sumLens_take_succ (l : List (List Nat)) (pos : Nat) (h : pos < l.length) :
    sumLens (l.take (pos + 1)) = sumLens (l.take pos) + (l.getD pos []).length := by
  rw [List.take_succ, sumLens_append, List.getElem?_eq_getElem h, getD_of_lt l pos h]
  simp [sumLens]

theorem findSplitPos_none (ml : Nat) (l : List (List Nat)) (acc : Nat)
    (hacc : acc < ml) (h : findSplitPos ml l acc = none) : acc + sumLens l < ml := by
  induction l generalizing acc with
  | nil => simpa [sumLens_nil] using hacc
  | cons b rest ih =>
    rw [findSplitPos] at h
    by_cases hle : ml ≤ acc + b.length
    · rw [if_pos hle] at h
      exact absurd h (by simp)
    · rw [if_neg hle] at h
      rcases hrec : findSplitPos ml rest (acc + b.length) with _ | ⟨i, s⟩
      · have := ih (acc + b.length) (by omega) hrec
        rw [sumLens_cons]
        omega
      · rw [hrec] at h
        exact absurd h (by simp)

theorem findSplitPos_some (ml : Nat) (l : List (List Nat)) (acc pos s : Nat)
    (hacc : acc < ml) (h : findSplitPos ml l acc = some (pos, s)) :
    pos < l.length ∧ s = acc + sumLens (l.take (pos + 1)) ∧ ml ≤ s ∧
      acc + sumLens (l.take pos) < ml := by
  induction l generalizing acc pos with
  | nil => exact absurd h (by simp [findSplitPos])
  | cons b rest ih =>
    rw [findSplitPos] at h
    by_cases hle : ml ≤ acc + b.length
    · rw [if_pos hle] at h
      simp only [Option.some.injEq, Prod.mk.injEq] at h
      obtain ⟨h1, h2⟩ := h
      subst h1
      subst h2
      refine ⟨by simp, ?_, hle, by simpa [sumLens_nil]⟩
      simp [sumLens_cons, sumLens_nil]
    · rw [if_neg hle] at h
      rcases hrec : findSplitPos ml rest (acc + b.length) with _ | ⟨i, s'⟩
      · rw [hrec] at h
        exact absurd h (by simp)
      · rw [hrec] at h
        simp only [Option.some.injEq, Prod.mk.injEq] at h
        obtain ⟨h1, h2⟩ := h
        subst h2
        obtain ⟨g1, g2, g3, g4⟩ := ih (acc + b.length) i (by omega) hrec
        subst h1
        refine ⟨by simpa using g1, ?_, g3, ?_⟩
        · rw [List.take_succ_cons, sumLens_cons]
          omega
        · rw [List.take_succ_cons, sumLens_cons]
          omega

/-- The three shapes `bounded` can produce: no split (all buffers fit),
a split at a buffer boundary, or a split inside a buffer. -/
theorem bounded_cases (B : List (List Nat)) (ml : Nat) (iv : IoVecs)
    (hml : 0 < ml) (h : IoVecs.bounded B ml = some iv) :
    (iv = IoVecs.unbounded B ∧ sumLens B ≤ ml) ∨
    (∃ pos, iv = ⟨B, some ⟨pos, none⟩⟩ ∧ pos + 1 < B.length ∧
      sumLens (B.take (pos + 1)) = ml ∧ sumLens (B.take pos) < ml) ∨
    (∃ pos bsp, pos < B.length ∧
      iv = ⟨B.set pos ((B.getD pos []).take bsp),
            some ⟨pos, some ((B.getD pos []).drop bsp)⟩⟩ ∧
      0 < bsp ∧ bsp < (B.getD pos []).length ∧
      sumLens (B.take pos) + bsp = ml ∧ ml < sumLens (B.take (pos + 1))) := by
  rcases hfind : findSplitPos ml B 0 with _ | ⟨pos, s⟩
  · left
    simp only [IoVecs.bounded, if_neg (show ¬ ml = 0 by omega), hfind,
      Option.some.injEq] at h
    have := findSplitPos_none ml B 0 hml hfind
    exact ⟨h.symm, by omega⟩
  · simp only [IoVecs.bounded, if_neg (show ¬ ml = 0 by omega), hfind,
      Option.some.injEq] at h
    obtain ⟨g1, g2, g3, g4⟩ := findSplitPos_some ml B 0 pos s hml hfind
    simp only [Nat.zero_add] at g2 g4
    by_cases heq : s = ml
    · by_cases hlast : pos + 1 = B.length
      · left
        rw [if_pos heq, if_pos hlast] at h
        refine ⟨by simpa using h.symm, ?_⟩
        have : B.take (pos + 1) = B := List.take_of_length_le (by omega)
        rw [← this]
        omega
      · right; left
        rw [if_pos heq, if_neg hlast] at h
        refine ⟨pos, by simpa [IoVecs.split_at_buffer_boundary] using h.symm,
          by omega, by omega, by omega⟩
    · right; right
      rw [if_neg heq] at h
      have hsum : sumLens (B.take (pos + 1)) = sumLens (B.take pos) + (B.getD pos []).length :=
        sumLens_take_succ B pos g1
      refine ⟨pos, ml - (s - (B.getD pos []).length), g1, ?_, by omega, by omega, by omega,
        by omega⟩
      simpa [IoVecs.split_within_buffer] using h.symm

theorem sumLens_take_le (l : List (List Nat)) (k : Nat) :
    sumLens (l.take k) ≤ sumLens l := by
  conv_rhs => rw [← List.take_append_drop k l]
  rw [sumLens_append]
  omega

theorem flatten_take_drop (l : List (List Nat)) (k : Nat) :
    l.flatten = (l.take k).flatten ++ (l.drop k).flatten := by
  conv_lhs => rw [← List.take_append_drop k l]
  rw [List.flatten_append]

theorem take_succ_set (l : List (List Nat)) (pos : Nat) (v : List Nat)
    (h : pos < l.length) :
    (l.set pos v).take (pos + 1) = l.take pos ++ [v] := by
  rw [List.set_eq_take_cons_drop v h]
  have hlen : (l.take pos).length = pos := by
    rw [List.length_take]
    omega
  rw [show pos + 1 = (l.take pos).length + 1 by omega]
  rw [List.take_append]
  simp

theorem drop_set_self (l : List (List Nat)) (pos : Nat) (v : List Nat)
    (h : pos < l.length) :
    (l.set pos v).drop pos = v :: l.drop (pos + 1) := by
  rw [List.drop_set, if_neg (lt_irrefl pos), Nat.sub_self,
    List.drop_eq_getElem_cons h]
  rfl

theorem flatten_drop_at (l : List (List Nat)) (pos : Nat) (h : pos < l.length) :
    (l.drop pos).flatten = l.getD pos [] ++ (l.drop (pos + 1)).flatten := by
  rw [List.drop_eq_getElem_cons h, List.flatten_cons, getD_of_lt l pos h]

theorem bounded_isSome (B : List (List Nat)) (ml : Nat) (hml : 0 < ml) :
    ∃ iv, IoVecs.bounded B ml = some iv := by
  rw [IoVecs.bounded, if_neg (show ¬ ml = 0 by omega)]
  exact ⟨_, rfl⟩

/-- C1 (confirmed): for every buffer list and every `max_len > 0`,
`bounded` succeeds, the first half followed by the materialized tail is
exactly the concatenation of the buffers, and the first half holds
`min (total bytes) max_len` bytes. -/
theorem iovecs_roundtrip (B : List (List Nat)) (ml : Nat) (hml : 0 < ml) :
    ∃ iv, IoVecs.bounded B ml = some iv ∧
      iv.as_u8_vec ++ iv.into_tail.flatten = B.flatten ∧
      iv.as_u8_vec.length = min B.flatten.length ml := by
  obtain ⟨iv, hiv⟩ := bounded_isSome B ml hml
  refine ⟨iv, hiv, ?_⟩
  rcases bounded_cases B ml iv hml hiv with ⟨he, hsum⟩ |
    ⟨pos, he, hlt, hs1, hs2⟩ | ⟨pos, bsp, hpos, he, hbsp0, hbsplt, hs1, hs2⟩
  · subst he
    simp only [IoVecs.as_u8_vec, IoVecs.as_slice, IoVecs.into_tail, IoVecs.unbounded]
    constructor
    · simp
    · rw [length_flatten]
      omega
  · subst he
    have hmarker : ¬(pos = 0 ∧ B ≠ [] ∧ B.getD 0 [] = []) := by
      rintro ⟨h0, hne, hnil⟩
      subst h0
      have h01 := sumLens_take_succ B 0 (by omega)
      rw [hnil] at h01
      rw [List.take_zero, sumLens_nil, List.length_nil] at h01
      omega
    simp only [IoVecs.as_u8_vec, IoVecs.as_slice, IoVecs.into_tail, if_neg hmarker]
    constructor
    · rw [← List.flatten_append, List.take_append_drop]
    · rw [length_flatten, length_flatten]
      have := sumLens_take_le B (pos + 1)
      omega
  · have hBp : (B.getD pos []).length ≠ 0 := by omega
    subst he
    have hset_len : (B.set pos ((B.getD pos []).take bsp)).length = B.length := by
      simp
    have hget0 : pos = 0 → (B.set pos ((B.getD pos []).take bsp)).getD 0 [] =
        (B.getD pos []).take bsp := by
      intro h0
      subst h0
      rw [getD_of_lt _ 0 (by omega), List.getElem_set_self]
    have hmarker : ¬(pos = 0 ∧ B.set pos ((B.getD pos []).take bsp) ≠ [] ∧
        (B.set pos ((B.getD pos []).take bsp)).getD 0 [] = []) := by
      rintro ⟨h0, hne, hnil⟩
      rw [hget0 h0] at hnil
      have : ((B.getD pos []).take bsp).length = 0 := by rw [hnil]; rfl
      rw [List.length_take] at this
      omega
    simp only [IoVecs.as_u8_vec, IoVecs.as_slice, IoVecs.into_tail, if_neg hmarker]
    rw [take_succ_set B pos _ hpos, List.set_set, drop_set_self B pos _ hpos]
    constructor
    · rw [List.flatten_append, List.flatten_cons]
      conv_rhs => rw [flatten_take_drop B pos, flatten_drop_at B pos hpos]
      simp only [List.flatten_cons, List.flatten_nil, List.append_nil,
        List.append_assoc]
      congr 1
      rw [← List.append_assoc, List.take_append_drop]
    · rw [length_flatten, length_flatten, sumLens_append]
      have hv : sumLens [(B.getD pos []).take bsp] = bsp := by
        rw [sumLens_cons, sumLens_nil, List.length_take]
        omega
      rw [hv]
      have := sumLens_take_le B (pos + 1)
      omega

theorem getD_drop_zero (l : List (List Nat)) (c : Nat) (h : c < l.length) :
    (l.drop c).getD 0 [] = l.getD c [] := by
  rw [List.drop_eq_getElem_cons h, getD_of_lt l c h]
  rfl

theorem getD_take (l : List (List Nat)) (c k : Nat) (hck : c < k) (h : c < l.length) :
    (l.take k).getD c [] = l.getD c [] := by
  rw [getD_of_lt _ c (by rw [List.length_take]; omega), getD_of_lt l c h,
    List.getElem_take]

theorem take_succ_getD (l : List (List Nat)) (pos : Nat) (h : pos < l.length) :
    l.take (pos + 1) = l.take pos ++ [l.getD pos []] := by
  rw [List.take_succ, List.getElem?_eq_getElem h, getD_of_lt l pos h]
  rfl

theorem getLast?_take_succ (l : List (List Nat)) (pos : Nat) (h : pos < l.length) :
    (l.take (pos + 1)).getLast? = some (l.getD pos []) := by
  rw [take_succ_getD l pos h, List.getLast?_concat]

theorem drop_set_zero_of_pos (l : List (List Nat)) (v : List Nat) (k : Nat)
    (hk : 0 < k) : (l.set 0 v).drop k = l.drop k := by
  rw [List.drop_set, if_pos hk]

theorem flatten_drop_sumLens (l : List (List Nat)) (c : Nat) :
    l.flatten.drop (sumLens (l.take c)) = (l.drop c).flatten := by
  conv_lhs => rw [flatten_take_drop l c]
  rw [show sumLens (l.take c) = (l.take c).flatten.length by rw [length_flatten]]
  rw [List.drop_left]

theorem flatten_set_zero_drop (Y : List (List Nat)) (m : Nat) (hY : Y ≠ [])
    (hm : m ≤ (Y.getD 0 []).length) :
    ((Y.set 0 ((Y.getD 0 []).drop m)).flatten) = Y.flatten.drop m := by
  rcases Y with _ | ⟨b, rest⟩
  · exact absurd rfl hY
  · show ((b.drop m) :: rest).flatten = ((b :: rest).flatten).drop m
    rw [List.flatten_cons, List.flatten_cons,
      List.drop_append_of_le_length (by simpa using hm)]

theorem countRem_spec (l : List (List Nat)) (n : Nat) :
    (countRem l n).1 ≤ l.length ∧
    (countRem l n).2 = sumLens (l.take (countRem l n).1) ∧
    (countRem l n).2 ≤ n ∧
    ((countRem l n).1 < l.length →
      n < (countRem l n).2 + (l.getD (countRem l n).1 []).length) ∧
    (sumLens l ≤ n → (countRem l n).1 = l.length) := by
  induction l generalizing n with
  | nil => simp [countRem, sumLens_nil]
  | cons b rest ih =>
    rw [countRem]
    by_cases hlt : n < b.length
    · rw [if_pos hlt]
      refine ⟨by simp, by simp [sumLens_nil], by omega, ?_, ?_⟩
      · intro _
        show n < 0 + b.length
        omega
      · intro hs
        rw [sumLens_cons] at hs
        omega
    · rw [if_neg hlt]
      obtain ⟨g1, g2, g3, g4, g5⟩ := ih (n - b.length)
      refine ⟨by simpa using g1, ?_, by omega, ?_, ?_⟩
      · show _ + b.length = sumLens ((b :: rest).take ((countRem rest (n - b.length)).1 + 1))
        rw [List.take_succ_cons, sumLens_cons]
        omega
      · intro hc
        simp only [List.length_cons] at hc
        have hc' : (countRem rest (n - b.length)).1 < rest.length := by omega
        have := g4 hc'
        rw [List.getD_cons_succ]
        omega
      · intro hs
        rw [sumLens_cons] at hs
        have := g5 (by omega)
        simp [this]

theorem drop_at_getD (l : List (List Nat)) (pos : Nat) (h : pos < l.length) :
    l.drop pos = l.getD pos [] :: l.drop (pos + 1) := by
  rw [List.drop_eq_getElem_cons h, getD_of_lt l pos h]

/-- Behavior of `advance` on any split state whose split position is in
range and whose buffer at the split position is nonempty (both hold for
states produced by `bounded`): an advance within the first half drops
exactly `n` bytes and preserves the tail, and an advance past the first
half panics. -/
theorem advance_split_case (B : List (List Nat)) (pos : Nat)
    (stash : Option (List Nat)) (n : Nat)
    (hpos : pos < B.length) (hlast : 0 < (B.getD pos []).length) :
    (n ≤ (IoVecs.mk B (some ⟨pos, stash⟩)).as_u8_vec.length →
      ∃ iv2, (IoVecs.mk B (some ⟨pos, stash⟩)).advance n = some iv2 ∧
        iv2.as_u8_vec = (IoVecs.mk B (some ⟨pos, stash⟩)).as_u8_vec.drop n ∧
        iv2.into_tail.flatten = (IoVecs.mk B (some ⟨pos, stash⟩)).into_tail.flatten) ∧
    ((IoVecs.mk B (some ⟨pos, stash⟩)).as_u8_vec.length < n →
      (IoVecs.mk B (some ⟨pos, stash⟩)).advance n = none) := by
  have hmarker : ¬(pos = 0 ∧ B ≠ [] ∧ B.getD 0 [] = []) := by
    rintro ⟨h0, -, hnil⟩
    subst h0
    rw [hnil] at hlast
    simp at hlast
  have hsl : (IoVecs.mk B (some ⟨pos, stash⟩)).as_slice = B.take (pos + 1) := by
    simp only [IoVecs.as_slice, if_neg hmarker]
  have hslen : (B.take (pos + 1)).length = pos + 1 := by
    rw [List.length_take]
    omega
  have hvec : (IoVecs.mk B (some ⟨pos, stash⟩)).as_u8_vec = (B.take (pos + 1)).flatten := by
    rw [IoVecs.as_u8_vec, hsl]
  have hFL : (IoVecs.mk B (some ⟨pos, stash⟩)).as_u8_vec.length
      = sumLens (B.take (pos + 1)) := by
    rw [hvec, length_flatten]
  have hLpos : (B.getD pos []).length ≤ sumLens (B.take (pos + 1)) := by
    rw [sumLens_take_succ B pos hpos]
    omega
  obtain ⟨c1, c2, c3, c4, c5⟩ := countRem_spec (B.take (pos + 1)) n
  have hdropne : B.drop pos ≠ [] := by
    rw [← List.length_pos, List.length_drop]
    omega
  rcases lt_trichotomy n (sumLens (B.take (pos + 1))) with hlt | heq | hgt
  · -- n < FL : successful partial advance within the first half
    have hcne : (countRem (B.take (pos + 1)) n).1 ≠ pos + 1 := by
      intro hceq
      rw [hceq, List.take_of_length_le (le_of_eq hslen)] at c2
      omega
    have hcle : (countRem (B.take (pos + 1)) n).1 ≤ pos := by
      rw [hslen] at c1
      omega
    -- abbreviations
    set c := (countRem (B.take (pos + 1)) n).1 with hc
    set t := (countRem (B.take (pos + 1)) n).2 with ht
    have hadj : advAdjust (IoVecs.mk B (some ⟨pos, stash⟩)) n = some (c, t) := by
      simp only [advAdjust, hsl, if_neg hcne]
    have hcB : c < B.length := by omega
    have htB : t = sumLens (B.take c) := by
      rw [c2, List.take_take]
      congr 2
      omega
    have hcc4 := c4 (by omega)
    rw [getD_take B c (pos + 1) (by omega) hcB] at hcc4
    set m := n - t with hm
    have hmlt : m < (B.getD c []).length := by omega
    have hbufs2 : B.drop c ≠ [] := by
      rw [← List.length_pos, List.length_drop]
      omega
    have hsp2 : advSplit (some ⟨pos, stash⟩) c = some ⟨pos - c, stash⟩ := by
      simp only [advSplit, Option.map_some']
      by_cases hpc : pos ≤ c
      · rw [if_pos hpc]
        have : pos - c = 0 := by omega
        rw [this]
      · rw [if_neg hpc]
    have hb0 : (B.drop c).getD 0 [] = B.getD c [] := getD_drop_zero B c hcB
    -- the first half after dropping c whole buffers
    have hsl_drop : (B.take (pos + 1)).drop c = (B.drop c).take (pos - c + 1) := by
      rw [show pos + 1 = c + (pos - c + 1) by omega, ← List.take_drop]
    have hflat_drop : (B.take (pos + 1)).flatten.drop t = ((B.drop c).take (pos - c + 1)).flatten := by
      rw [htB, show sumLens (B.take c) = sumLens ((B.take (pos + 1)).take c) by
        rw [List.take_take]; congr 2; omega]
      rw [flatten_drop_sumLens (B.take (pos + 1)) c, hsl_drop]
    have hdropn : (B.take (pos + 1)).flatten.drop n =
        (((B.drop c).take (pos - c + 1)).flatten).drop m := by
      rw [show n = t + m by omega, ← List.drop_drop]
      rw [hflat_drop]
    constructor
    · intro hle
      by_cases hm0 : m = 0
      · -- no partial buffer trimming
        refine ⟨⟨B.drop c, some ⟨pos - c, stash⟩⟩, ?_, ?_, ?_⟩
        · simp only [IoVecs.advance, hadj, if_neg hbufs2, ← hm, hm0, hsp2]
          simp
        · -- first half
          have hmarker2 : ¬(pos - c = 0 ∧ B.drop c ≠ [] ∧ (B.drop c).getD 0 [] = []) := by
            rintro ⟨-, -, hnil⟩
            rw [hb0] at hnil
            rw [hnil] at hmlt
            simp at hmlt
          rw [hvec, hdropn, hm0, List.drop_zero]
          simp only [IoVecs.as_u8_vec, IoVecs.as_slice, if_neg hmarker2]
        · -- tail
          rcases stash with _ | st
          · simp only [IoVecs.into_tail]
            rw [List.drop_drop]
            congr 2
            omega
          · simp only [IoVecs.into_tail]
            rw [drop_set_self (B.drop c) (pos - c) st (by rw [List.length_drop]; omega),
              drop_set_self B pos st hpos, List.drop_drop]
            congr 3
            omega
      · -- partial trimming of the head buffer
        have hnlt : ¬ ((B.drop c).getD 0 []).length < m := by
          rw [hb0]
          omega
        refine ⟨⟨(B.drop c).set 0 (((B.drop c).getD 0 []).drop m),
          some ⟨pos - c, stash⟩⟩, ?_, ?_, ?_⟩
        · simp only [IoVecs.advance, hadj, if_neg hbufs2, ← hm, if_neg hm0,
            if_neg hnlt, hsp2]
        · -- first half
          have hheadne : ((B.drop c).getD 0 []).drop m ≠ [] := by
            rw [hb0, ← List.length_pos, List.length_drop]
            omega
          have hget2 : ((B.drop c).set 0 (((B.drop c).getD 0 []).drop m)).getD 0 []
              = ((B.drop c).getD 0 []).drop m := by
            rw [getD_of_lt _ 0 (by rw [List.length_set, List.length_drop]; omega),
              List.getElem_set_self]
          have hmarker2 : ¬(pos - c = 0 ∧
              (B.drop c).set 0 (((B.drop c).getD 0 []).drop m) ≠ [] ∧
              ((B.drop c).set 0 (((B.drop c).getD 0 []).drop m)).getD 0 [] = []) := by
            rintro ⟨-, -, hnil⟩
            rw [hget2] at hnil
            exact hheadne hnil
          rw [hvec, hdropn]
          simp only [IoVecs.as_u8_vec, IoVecs.as_slice, if_neg hmarker2]
          rw [List.set_take]
          have hZne : (B.drop c).take (pos - c + 1) ≠ [] := by
            rw [← List.length_pos, List.length_take, List.length_drop]
            omega
          have hZget : ((B.drop c).take (pos - c + 1)).getD 0 [] = (B.drop c).getD 0 [] :=
            getD_take (B.drop c) 0 (pos - c + 1) (by omega) (by rw [List.length_drop]; omega)
          rw [show ((B.drop c).getD 0 []).drop m =
            (((B.drop c).take (pos - c + 1)).getD 0 []).drop m by rw [hZget]]
          rw [flatten_set_zero_drop _ m hZne (by rw [hZget, hb0]; omega)]
        · -- tail
          rcases stash with _ | st
          · simp only [IoVecs.into_tail]
            rw [drop_set_zero_of_pos _ _ _ (by omega), List.drop_drop]
            congr 2
            omega
          · simp only [IoVecs.into_tail]
            by_cases hcp : c = pos
            · have h0 : pos - c = 0 := by omega
              rw [h0, List.set_set, List.drop_zero, drop_set_self B pos st hpos]
              rw [show c = pos from hcp, drop_at_getD B pos hpos]
              rfl
            · have h0 : 0 < pos - c := by omega
              rw [List.set_comm _ _ _ (by omega), drop_set_zero_of_pos _ _ _ (by omega)]
              rw [drop_set_self (B.drop c) (pos - c) st (by rw [List.length_drop]; omega),
                drop_set_self B pos st hpos, List.drop_drop]
              congr 3
              omega
    · intro hgt2
      rw [hFL] at hgt2
      omega
  · -- n = FL : advance consumes exactly the first half
    have hc : (countRem (B.take (pos + 1)) n).1 = pos + 1 := by
      have := c5 (by omega)
      rw [hslen] at this
      exact this
    have ht : (countRem (B.take (pos + 1)) n).2 = sumLens (B.take (pos + 1)) := by
      rw [c2, hc, List.take_of_length_le (le_of_eq hslen)]
    have hlastq : (B.take (pos + 1)).getLast?.getD [] = B.getD pos [] := by
      rw [getLast?_take_succ B pos hpos]
      rfl
    have hadj : advAdjust (IoVecs.mk B (some ⟨pos, stash⟩)) n =
        some (pos, sumLens (B.take (pos + 1)) - (B.getD pos []).length) := by
      simp only [advAdjust, hsl, hc, ht, hlastq, if_true]
      rw [if_neg (show ¬ sumLens (B.take (pos + 1)) < n by omega)]
      norm_num
    have hm : n - (sumLens (B.take (pos + 1)) - (B.getD pos []).length)
        = (B.getD pos []).length := by omega
    have hb0 : (B.drop pos).getD 0 [] = B.getD pos [] := getD_drop_zero B pos hpos
    have hm0 : ¬ n - (sumLens (B.take (pos + 1)) - (B.getD pos []).length) = 0 := by
      rw [hm]
      omega
    have hnotlt : ¬ ((B.drop pos).getD 0 []).length
        < n - (sumLens (B.take (pos + 1)) - (B.getD pos []).length) := by
      rw [hb0, hm]
      exact lt_irrefl _
    have hsp2 : advSplit (some ⟨pos, stash⟩) pos = some ⟨0, stash⟩ := by
      simp only [advSplit, Option.map_some', if_pos (le_refl pos)]
    have hdropfull : ((B.drop pos).getD 0 []).drop
        (n - (sumLens (B.take (pos + 1)) - (B.getD pos []).length)) = [] := by
      rw [hb0, hm, List.drop_length]
    constructor
    · intro hle
      refine ⟨⟨(B.drop pos).set 0 [], some ⟨0, stash⟩⟩, ?_, ?_, ?_⟩
      · simp only [IoVecs.advance, hadj, if_neg hdropne, if_neg hm0, if_neg hnotlt,
          hsp2, hdropfull]
      · -- first half is now empty
        have hset : (B.drop pos).set 0 [] = [] :: B.drop (pos + 1) := by
          rw [drop_at_getD B pos hpos]
          rfl
        have hfull : (B.take (pos + 1)).flatten.length ≤ n := by
          rw [length_flatten]
          omega
        rw [hvec, List.drop_eq_nil_of_le hfull]
        simp [IoVecs.as_u8_vec, IoVecs.as_slice, hset]
      · -- tail unchanged
        have hset : (B.drop pos).set 0 [] = [] :: B.drop (pos + 1) := by
          rw [drop_at_getD B pos hpos]
          rfl
        rcases stash with _ | st
        · simp only [IoVecs.into_tail]
          rw [hset]
          rfl
        · simp only [IoVecs.into_tail]
          rw [hset, drop_set_self B pos st hpos]
          rfl
    · intro hgt2
      rw [hFL] at hgt2
      omega
  · -- FL < n : panic
    have hc : (countRem (B.take (pos + 1)) n).1 = pos + 1 := by
      have := c5 (by omega)
      rw [hslen] at this
      exact this
    have ht : (countRem (B.take (pos + 1)) n).2 = sumLens (B.take (pos + 1)) := by
      rw [c2, hc, List.take_of_length_le (le_of_eq hslen)]
    have hadj : advAdjust (IoVecs.mk B (some ⟨pos, stash⟩)) n = none := by
      simp only [advAdjust, hsl, hc, ht, if_true]
      rw [if_pos (show sumLens (B.take (pos + 1)) < n by omega)]
    constructor
    · intro hle
      rw [hFL] at hle
      omega
    · intro _
      simp only [IoVecs.advance, hadj]

/-- Behavior of `advance` on an unbounded (no-split) state: an advance
within the buffers drops exactly `n` bytes; an advance past the end
does not panic and leaves an empty buffer list. -/
theorem advance_unbounded_case (B : List (List Nat)) (n : Nat) :
    (n ≤ (IoVecs.unbounded B).as_u8_vec.length →
      ∃ iv2, (IoVecs.unbounded B).advance n = some iv2 ∧
        iv2.as_u8_vec = (IoVecs.unbounded B).as_u8_vec.drop n ∧
        iv2.into_tail.flatten = (IoVecs.unbounded B).into_tail.flatten) ∧
    ((IoVecs.unbounded B).as_u8_vec.length < n →
      (IoVecs.unbounded B).advance n = some (IoVecs.mk [] none)) := by
  have hsl : (IoVecs.unbounded B).as_slice = B := rfl
  have hvec : (IoVecs.unbounded B).as_u8_vec = B.flatten := rfl
  have hFL : (IoVecs.unbounded B).as_u8_vec.length = sumLens B := by
    rw [hvec, length_flatten]
  obtain ⟨c1, c2, c3, c4, c5⟩ := countRem_spec B n
  set c := (countRem B n).1 with hc
  set t := (countRem B n).2 with ht
  have hadj : advAdjust (IoVecs.mk B none) n = some (c, t) := by
    simp only [advAdjust]
    rfl
  constructor
  · intro hle
    rw [hFL] at hle
    by_cases hcB : B.drop c = []
    · -- all buffers consumed exactly
      have hclen : B.length ≤ c := by
        rw [← List.drop_eq_nil_iff]
        exact hcB
      have hteq : t = sumLens B := by
        rw [c2, List.take_of_length_le (by omega)]
      have hneq : n = sumLens B := by omega
      refine ⟨⟨[], none⟩, ?_, ?_, ?_⟩
      · simp only [IoVecs.advance, hadj, IoVecs.unbounded, hcB, if_pos rfl]
        rfl
      · rw [hvec, List.drop_eq_nil_of_le (by rw [length_flatten]; omega)]
        rfl
      · rfl
    · have hcBlen : c < B.length := by
        by_contra hcon
        exact hcB (List.drop_eq_nil_of_le (by omega))
      have hcc4 := c4 hcBlen
      set m := n - t with hm
      have hb0 : (B.drop c).getD 0 [] = B.getD c [] := getD_drop_zero B c hcBlen
      by_cases hm0 : m = 0
      · refine ⟨⟨B.drop c, none⟩, ?_, ?_, ?_⟩
        · simp only [IoVecs.advance, hadj, IoVecs.unbounded, hcB, ← hm, hm0, if_pos rfl]
          rfl
        · show (B.drop c).flatten = B.flatten.drop n
          rw [show n = t by omega, c2, flatten_drop_sumLens]
        · rfl
      · have hnlt : ¬ ((B.drop c).getD 0 []).length < m := by
          rw [hb0]
          omega
        refine ⟨⟨(B.drop c).set 0 (((B.drop c).getD 0 []).drop m), none⟩, ?_, ?_, ?_⟩
        · simp only [IoVecs.advance, hadj, IoVecs.unbounded, hcB, ← hm, hm0, hnlt]
          rfl
        · show ((B.drop c).set 0 (((B.drop c).getD 0 []).drop m)).flatten = B.flatten.drop n
          rw [flatten_set_zero_drop _ m hcB (by rw [hb0]; omega)]
          rw [show n = t + m by omega, ← List.drop_drop, c2, flatten_drop_sumLens]
        · rfl
  · intro hgt
    rw [hFL] at hgt
    have hc5 := c5 (by omega)
    have hcB : B.drop c = [] := List.drop_eq_nil_of_le (by omega)
    simp only [IoVecs.advance, hadj, IoVecs.unbounded, hcB, if_pos rfl]
    rfl

/-- C4 (corrected): on a freshly bounded `IoVecs`, `advance n` with
`n` at most the first-half byte count succeeds, shortens the first half
by exactly `n` bytes and leaves the tail bytes unchanged; `advance`
past the first half panics when the construction actually split the
buffers, but when no split occurred (total ≤ max_len) it silently
empties the iovecs instead of panicking. -/
theorem iovecs_advance_spec (B : List (List Nat)) (ml n : Nat) (iv : IoVecs)
    (hml : 0 < ml) (hiv : IoVecs.bounded B ml = some iv) :
    (n ≤ iv.as_u8_vec.length →
      ∃ iv2, iv.advance n = some iv2 ∧
        iv2.as_u8_vec = iv.as_u8_vec.drop n ∧
        iv2.into_tail.flatten = iv.into_tail.flatten) ∧
    (iv.as_u8_vec.length < n → iv.split.isSome → iv.advance n = none) ∧
    (iv.as_u8_vec.length < n → iv.split = none →
      iv.advance n = some (IoVecs.mk [] none)) := by
  rcases bounded_cases B ml iv hml hiv with ⟨he, hsum⟩ |
    ⟨pos, he, hlt, hs1, hs2⟩ | ⟨pos, bsp, hpos, he, hbsp0, hbsplt, hs1, hs2⟩
  · subst he
    obtain ⟨hA, hB⟩ := advance_unbounded_case B n
    exact ⟨hA, fun h1 h2 => by simp [IoVecs.unbounded] at h2, fun h1 _ => hB h1⟩
  · subst he
    have hpos' : pos < B.length := by omega
    have hlast : 0 < (B.getD pos []).length := by
      have := sumLens_take_succ B pos hpos'
      omega
    obtain ⟨hA, hB⟩ := advance_split_case B pos none n hpos' hlast
    exact ⟨hA, fun h1 _ => hB h1, fun h1 h2 => by simp at h2⟩
  · subst he
    have hpos2 : pos < (B.set pos ((B.getD pos []).take bsp)).length := by
      rw [List.length_set]
      exact hpos
    have hlast : 0 < ((B.set pos ((B.getD pos []).take bsp)).getD pos []).length := by
      rw [getD_of_lt _ pos hpos2, List.getElem_set_self]
      rw [List.length_take]
      omega
    obtain ⟨hA, hB⟩ :=
      advance_split_case (B.set pos ((B.getD pos []).take bsp)) pos
        (some ((B.getD pos []).drop bsp)) n hpos2 hlast
    exact ⟨hA, fun h1 _ => hB h1, fun h1 h2 => by simp at h2⟩

/-- `IoVecs::bounded` from `iovecs/window.rs` (the `IoSlice`-based
variant). The code is identical to the `iovecs/utils.rs` version. -/
def Window.bounded (bufs : List (List Nat)) (max_len : Nat) : Option IoVecs :=
  if max_len = 0 then none
  else some
    (match findSplitPos max_len bufs 0 with
    | none => IoVecs.unbounded bufs
    | some (pos, bufs_len) =>
      if bufs_len = max_len then
        if pos + 1 = bufs.length then IoVecs.unbounded bufs
        else IoVecs.split_at_buffer_boundary bufs pos
      else
        IoVecs.split_within_buffer bufs pos
          (max_len - (bufs_len - (bufs.getD pos []).length)))

/-- `IoVecs::as_slice` from `iovecs/window.rs`. -/
def Window.as_slice (iv : IoVecs) : List (List Nat) :=
  match iv.split with
  | some s =>
    if s.pos = 0 ∧ iv.bufs ≠ [] ∧ iv.bufs.getD 0 [] = [] then []
    else iv.bufs.take (s.pos + 1)
  | none => iv.bufs

/-- `IoVecs::into_tail` from `iovecs/window.rs`. Unlike the
`iovecs/utils.rs` version, the buffer-boundary branch does not advance
past the split position (`pos += 1` is missing), so the returned tail
starts at `pos` instead of `pos + 1`. -/
def Window.into_tail (iv : IoVecs) : List (List Nat) :=
  match iv.split with
  | some s =>
    match s.split_buf_second_half with
    | some stash => (iv.bufs.set s.pos stash).drop s.pos
    | none => iv.bufs.drop s.pos
  | none => []

theorem window_bounded_eq (bufs : List (List Nat)) (max_len : Nat) :
    Window.bounded bufs max_len = IoVecs.bounded bufs max_len := rfl

theorem window_as_slice_eq (iv : IoVecs) : Window.as_slice iv = iv.as_slice := rfl

/-- C10 counterexample: on buffers `[[0], [1], [2]]` with `max_len = 1`
(a buffer-boundary split), the `utils.rs` tail is `[1, 2]` but the
`window.rs` tail is `[0, 1, 2]` — the two implementations are not
observationally equivalent. -/
theorem window_tail_differs_counterexample :
    (IoVecs.bounded [[0],[1],[2]] 1).map (fun iv => iv.into_tail.flatten)
      = some [1, 2] ∧
    (Window.bounded [[0],[1],[2]] 1).map (fun iv => (Window.into_tail iv).flatten)
      = some [0, 1, 2] ∧
    ([1, 2] : List Nat) ≠ [0, 1, 2] := by
  refine ⟨by rfl, by rfl, by decide⟩

/-- C10 (corrected): the two `IoVecs` implementations agree on
construction and on the first half, and their materialized tails agree
whenever the split is absent or falls inside a buffer; at a
buffer-boundary split the `window.rs` tail additionally contains the
last buffer of the first half. -/
theorem window_equivalence_spec (B : List (List Nat)) (ml : Nat) (iv : IoVecs)
    (hml : 0 < ml) (hiv : IoVecs.bounded B ml = some iv) :
    Window.bounded B ml = some iv ∧
    Window.as_slice iv = iv.as_slice ∧
    (∀ pos stash, iv.split = some ⟨pos, some stash⟩ →
      Window.into_tail iv = iv.into_tail) ∧
    (iv.split = none → Window.into_tail iv = iv.into_tail) ∧
    (∀ pos, iv.split = some ⟨pos, none⟩ →
      Window.into_tail iv = iv.bufs.getD pos [] :: iv.into_tail) := by
  refine ⟨by rw [window_bounded_eq, hiv], window_as_slice_eq iv, ?_, ?_, ?_⟩
  · rintro pos stash h
    rcases iv with ⟨bufs, sp⟩
    simp only at h
    subst h
    rfl
  · intro h
    rcases iv with ⟨bufs, sp⟩
    simp only at h
    subst h
    rfl
  · intro pos h
    rcases bounded_cases B ml iv hml hiv with ⟨he, -⟩ |
      ⟨pos', he, hlt, -, -⟩ | ⟨pos', bsp, hpos, he, -, -, -, -⟩
    · rw [he] at h
      simp [IoVecs.unbounded] at h
    · subst he
      simp only [Option.some.injEq, Split.mk.injEq] at h
      obtain ⟨h1, -⟩ := h
      rw [← h1]
      show B.drop pos' = B.getD pos' [] :: B.drop (pos' + 1)
      exact drop_at_getD B pos' (by omega)
    · subst he
      simp only [Option.some.injEq, Split.mk.injEq] at h
      exact absurd h.2 (by simp)

/-- Witness for `iovecs_roundtrip`. -/
theorem iovecs_roundtrip_witness :
    0 < 3 ∧
    ∃ iv, IoVecs.bounded [[1, 2], [3, 4]] 3 = some iv ∧
      iv.as_u8_vec ++ iv.into_tail.flatten = ([[1, 2], [3, 4]] : List (List Nat)).flatten ∧
      iv.as_u8_vec.length = min ([[1, 2], [3, 4]] : List (List Nat)).flatten.length 3 :=
  ⟨by decide, iovecs_roundtrip [[1, 2], [3, 4]] 3 (by decide)⟩

/-- C4 counterexample: `bounded [[0]] 2` performs no split, and
advancing by 2 > 1 bytes does not panic — it empties the iovecs. -/
theorem iovecs_advance_no_panic_counterexample :
    IoVecs.bounded [[0]] 2 = some (IoVecs.mk [[0]] none) ∧
    (IoVecs.mk [[0]] none).as_u8_vec.length < 2 ∧
    (IoVecs.mk [[0]] none).advance 2 = some (IoVecs.mk [] none) := by
  decide

/-- Witness for `iovecs_advance_spec` at a within-buffer split. -/
theorem iovecs_advance_spec_witness :
    (0 < 3 ∧ IoVecs.bounded [[1, 2], [3, 4], [5, 6]] 3 =
      some (IoVecs.mk [[1, 2], [3], [5, 6]] (some ⟨1, some [4]⟩))) ∧
    ((2 ≤ (IoVecs.mk [[1, 2], [3], [5, 6]] (some ⟨1, some [4]⟩)).as_u8_vec.length →
      ∃ iv2, (IoVecs.mk [[1, 2], [3], [5, 6]] (some ⟨1, some [4]⟩)).advance 2 = some iv2 ∧
        iv2.as_u8_vec =
          (IoVecs.mk [[1, 2], [3], [5, 6]] (some ⟨1, some [4]⟩)).as_u8_vec.drop 2 ∧
        iv2.into_tail.flatten =
          (IoVecs.mk [[1, 2], [3], [5, 6]] (some ⟨1, some [4]⟩)).into_tail.flatten) ∧
     ((IoVecs.mk [[1, 2], [3], [5, 6]] (some ⟨1, some [4]⟩)).as_u8_vec.length < 2 →
      (IoVecs.mk [[1, 2], [3], [5, 6]] (some ⟨1, some [4]⟩)).split.isSome →
      (IoVecs.mk [[1, 2], [3], [5, 6]] (some ⟨1, some [4]⟩)).advance 2 = none) ∧
     ((IoVecs.mk [[1, 2], [3], [5, 6]] (some ⟨1, some [4]⟩)).as_u8_vec.length < 2 →
      (IoVecs.mk [[1, 2], [3], [5, 6]] (some ⟨1, some [4]⟩)).split = none →
      (IoVecs.mk [[1, 2], [3], [5, 6]] (some ⟨1, some [4]⟩)).advance 2 =
        some (IoVecs.mk [] none))) :=
  ⟨⟨by decide, by decide⟩,
   iovecs_advance_spec [[1, 2], [3, 4], [5, 6]] 3 2
     (IoVecs.mk [[1, 2], [3], [5, 6]] (some ⟨1, some [4]⟩)) (by decide) (by decide)⟩

/-- Witness for `window_equivalence_spec`. -/
theorem window_equivalence_spec_witness :
    (0 < 3 ∧ IoVecs.bounded [[1, 2], [3, 4], [5, 6]] 3 =
      some (IoVecs.mk [[1, 2], [3], [5, 6]] (some ⟨1, some [4]⟩))) ∧
    (Window.bounded [[1, 2], [3, 4], [5, 6]] 3 =
      some (IoVecs.mk [[1, 2], [3], [5, 6]] (some ⟨1, some [4]⟩)) ∧
     Window.as_slice (IoVecs.mk [[1, 2], [3], [5, 6]] (some ⟨1, some [4]⟩)) =
      (IoVecs.mk [[1, 2], [3], [5, 6]] (some ⟨1, some [4]⟩)).as_slice ∧
     (∀ pos stash,
      (IoVecs.mk [[1, 2], [3], [5, 6]] (some ⟨1, some [4]⟩)).split = some ⟨pos, some stash⟩ →
      Window.into_tail (IoVecs.mk [[1, 2], [3], [5, 6]] (some ⟨1, some [4]⟩)) =
        (IoVecs.mk [[1, 2], [3], [5, 6]] (some ⟨1, some [4]⟩)).into_tail) ∧
     ((IoVecs.mk [[1, 2], [3], [5, 6]] (some ⟨1, some [4]⟩)).split = none →
      Window.into_tail (IoVecs.mk [[1, 2], [3], [5, 6]] (some ⟨1, some [4]⟩)) =
        (IoVecs.mk [[1, 2], [3], [5, 6]] (some ⟨1, some [4]⟩)).into_tail) ∧
     (∀ pos,
      (IoVecs.mk [[1, 2], [3], [5, 6]] (some ⟨1, some [4]⟩)).split = some ⟨pos, none⟩ →
      Window.into_tail (IoVecs.mk [[1, 2], [3], [5, 6]] (some ⟨1, some [4]⟩)) =
        (IoVecs.mk [[1, 2], [3], [5, 6]] (some ⟨1, some [4]⟩)).bufs.getD pos [] ::
          (IoVecs.mk [[1, 2], [3], [5, 6]] (some ⟨1, some [4]⟩)).into_tail)) :=
  ⟨⟨by decide, by decide⟩,
   window_equivalence_spec [[1, 2], [3, 4], [5, 6]] 3
     (IoVecs.mk [[1, 2], [3], [5, 6]] (some ⟨1, some [4]⟩)) (by decide) (by decide)⟩
